import Mathlib

/-!
# Verification of the PDF header-detection engine

A shallow embedding of `pdf_header_detector/detector.py` (class
`HeaderDetector`) and proofs about it.

Conventions of the embedding:

* All font sizes, coordinates and thresholds are modelled as integers in
  *tenths* of the source's floating-point units ("deci-points"): `20.0pt ↦ 200`,
  `0.5pt ↦ 5`, `2.0pt ↦ 20`, `12.0pt ↦ 120`, `25.0pt ↦ 250`, the default
  Y-tolerance `1.0 ↦ 10`, `y = 100.2 ↦ 1002`.  The source rounds every font
  size onto the 0.1pt grid (`round(size, 1)`) at extraction time, so this
  scaling is exact for sizes; for coordinates and thresholds the scaling is an
  order- and arithmetic-preserving embedding (only `+`, `-`, `abs`, `<`, `≤`
  on these quantities occur in the source).
* Python strings are sequences of Unicode code points; they are modelled as
  `String` and manipulated through explicit helpers (`pyStrip`, `pySplitWs`,
  `pyLower`, `pyLen`, `pyJoin`) that mirror `str.strip()`, `str.split()`,
  `str.lower()`, `len`, `str.join` on the underlying code-point list.
* Python `dict`s keyed by font size are modelled as insertion-ordered
  association lists (`dictInsert` overwrites in place, `dictGet?` looks up);
  `collections.Counter.most_common(n)` is modelled by a stable sort of the
  (first-occurrence-ordered) items by descending count followed by `take n`.
* Python's `sorted`/`list.sort` (a stable sort) is modelled by
  `List.insertionSort`, which is stable for the `≤`-by-key relations used.
-/

/-! ## Python string helpers (code-point semantics) -/

/-- Python `str.strip()`: drop leading and trailing whitespace code points. -/
def pyStrip (s : String) : String :=
  ⟨((s.data.dropWhile Char.isWhitespace).reverse.dropWhile Char.isWhitespace).reverse⟩

/-- Helper for `pySplitWs`: scan the code points, accumulating the current
(reversed) word; whitespace closes a word, empty words are not emitted. -/
def pySplitWsAux : List Char → List Char → List String
  | [], acc => if acc.isEmpty then [] else [⟨acc.reverse⟩]
  | c :: cs, acc =>
    if c.isWhitespace then
      if acc.isEmpty then pySplitWsAux cs []
      else ⟨acc.reverse⟩ :: pySplitWsAux cs []
    else pySplitWsAux cs (c :: acc)

/-- Python `str.split()` with no arguments: split on whitespace runs,
discarding empty fragments. -/
def pySplitWs (s : String) : List String := pySplitWsAux s.data []

/-- Python `str.lower()` (restricted to the ASCII letters that occur in the
fixed word list of the source). -/
def pyLower (s : String) : String := ⟨s.data.map Char.toLower⟩

/-- Python `len` on a string: the number of code points. -/
def pyLen (s : String) : ℕ := s.data.length

/-- Python `sep.join(list)`. -/
def pyJoin (sep : String) : List String → String
  | [] => ""
  | [x] => x
  | x :: y :: xs => x ++ sep ++ pyJoin sep (y :: xs)

/-- Python `str.startswith("_")` (only the one-character prefix `'_'` is
tested by the source). -/
def pyStartsUnderscore (s : String) : Bool :=
  match s.data with
  | c :: _ => decide (c = '_')
  | [] => false

/-! ## Python container helpers -/

/-- Distinct elements of a list in order of first occurrence, carrying the set
of already-seen elements; models the key order of a Python `dict`/`set`/
`Counter` built by insertion. -/
def pyDedupAux [DecidableEq α] : List α → List α → List α
  | [], _ => []
  | x :: xs, seen => if x ∈ seen then pyDedupAux xs seen else x :: pyDedupAux xs (x :: seen)

/-- Distinct elements in order of first occurrence. -/
def pyDedup [DecidableEq α] (l : List α) : List α := pyDedupAux l []

/-- Python `max` over a nonempty list of numbers (`0` on the empty list, which
the source never passes). -/
def listMax : List ℤ → ℤ
  | [] => 0
  | x :: xs => xs.foldl max x

instance : IsTotal ℤ (fun a b : ℤ => b ≤ a) := ⟨fun a b => le_total b a⟩

instance : IsTrans ℤ (fun a b : ℤ => b ≤ a) := ⟨fun _ _ _ h1 h2 => le_trans h2 h1⟩

/-- Python `sorted(xs, reverse=True)` on integers (deci-points). -/
def sortDesc (l : List ℤ) : List ℤ := List.insertionSort (fun a b : ℤ => b ≤ a) l

/-- The items of `collections.Counter(l)` in insertion (first-occurrence)
order, each with its multiplicity. -/
def counterItems (l : List ℤ) : List (ℤ × ℕ) :=
  (pyDedup l).map (fun x => (x, l.countP (fun y => decide (y = x))))

instance : IsTotal (ℤ × ℕ) (fun p q : ℤ × ℕ => q.2 ≤ p.2) := ⟨fun p q => le_total q.2 p.2⟩

instance : IsTrans (ℤ × ℕ) (fun p q : ℤ × ℕ => q.2 ≤ p.2) :=
  ⟨fun _ _ _ h1 h2 => le_trans h2 h1⟩

/-- Stable sort of counter items by descending count (ties keep first-occurrence
order), as `heapq.nlargest` / `Counter.most_common` does. -/
def sortByCountDesc (items : List (ℤ × ℕ)) : List (ℤ × ℕ) :=
  List.insertionSort (fun p q : ℤ × ℕ => q.2 ≤ p.2) items

/-- Python `Counter(l).most_common(n)`. -/
def pyMostCommon (n : ℕ) (l : List ℤ) : List (ℤ × ℕ) :=
  (sortByCountDesc (counterItems l)).take n

/-- Insert/overwrite a key in an insertion-ordered association list, exactly as
assignment into a Python `dict` behaves (an existing key keeps its position,
a new key is appended). -/
def dictInsert (k : ℤ) (v : ℕ) (d : List (ℤ × ℕ)) : List (ℤ × ℕ) :=
  if d.any (fun p => decide (p.1 = k)) then d.map (fun p => if p.1 = k then (k, v) else p)
  else d ++ [(k, v)]

/-- Python `d.get(k)` / `k in d` on the association-list model of a `dict`. -/
def dictGet? (d : List (ℤ × ℕ)) (k : ℤ) : Option ℕ :=
  (d.find? (fun p => decide (p.1 = k))).map Prod.snd

/-! ## Font hierarchy analyzer (`HeaderDetector._analyze_font_hierarchy`)

Each local variable of the source function becomes a definition of the same
name.  Sizes are deci-points, so `round(size, 1)` is the identity. -/

/-- Models `round(size, 1)`: on the deci-point grid (integers standing for
tenths of a point) rounding to one decimal place is the identity. -/
def round1 (size : ℤ) : ℤ := size

/-- `rounded_sizes = [round(size, 1) for size in all_font_sizes]`. -/
def rounded_sizes (all_font_sizes : List ℤ) : List ℤ := all_font_sizes.map round1

/-- `all_unique_sizes = sorted(set(rounded_sizes), reverse=True)`. -/
def all_unique_sizes (all_font_sizes : List ℤ) : List ℤ :=
  sortDesc (pyDedup (rounded_sizes all_font_sizes))

/-- `header_font_sizes = [size for size in rounded_sizes if size > min_size]`. -/
def header_font_sizes (all_font_sizes : List ℤ) (min_size : ℤ) : List ℤ :=
  (rounded_sizes all_font_sizes).filter (fun s => decide (min_size < s))

/-- `header_unique_sizes = sorted(set(header_font_sizes), reverse=True)`. -/
def header_unique_sizes (all_font_sizes : List ℤ) (min_size : ℤ) : List ℤ :=
  sortDesc (pyDedup (header_font_sizes all_font_sizes min_size))

/-- `most_common = Counter(rounded_sizes).most_common(5)`. -/
def most_common5 (all_font_sizes : List ℤ) : List (ℤ × ℕ) :=
  pyMostCommon 5 (rounded_sizes all_font_sizes)

/-- `body_text_candidates = [size for size, count in most_common
                             if size <= 20.0 and count > 5]` (20.0pt ↦ 200). -/
def body_text_candidates (all_font_sizes : List ℤ) : List ℤ :=
  ((most_common5 all_font_sizes).filter (fun p => decide (p.1 ≤ 200 ∧ 5 < p.2))).map Prod.fst

/-- `body_text_size = max(body_text_candidates)` when candidates exist,
otherwise the fallback `body_text_size = min_size`. -/
def body_text_size (all_font_sizes : List ℤ) (min_size : ℤ) : ℤ :=
  if body_text_candidates all_font_sizes = [] then min_size
  else listMax (body_text_candidates all_font_sizes)

/-- The `filtered_sizes` loop: when body-text candidates exist, keep a header
size if `size > 20.0` (↦ 200) or `size > body_text_size + 2.0` (↦ +20);
in the fallback branch `filtered_sizes = header_unique_sizes` unchanged. -/
def filtered_sizes (all_font_sizes : List ℤ) (min_size : ℤ) : List ℤ :=
  if body_text_candidates all_font_sizes = [] then header_unique_sizes all_font_sizes min_size
  else (header_unique_sizes all_font_sizes min_size).filter
    (fun s => decide (200 < s ∨ body_text_size all_font_sizes min_size + 20 < s))

/-- The clustering loop over `filtered_sizes`: for each not-yet-used size,
collect every unused filtered size within 0.5pt (↦ 5), represent the cluster by
its maximum, and mark the members used. -/
def clusterLoop (filtered : List ℤ) : List ℤ → List ℤ → List ℤ
  | [], _ => []
  | s :: rest, used =>
    if s ∈ used then clusterLoop filtered rest used
    else
      let similar := filtered.filter (fun t => decide (|t - s| ≤ 5 ∧ t ∉ used))
      if similar = [] then clusterLoop filtered rest used
      else listMax similar :: clusterLoop filtered rest (used ++ similar)

/-- `grouped_sizes`, after the final `grouped_sizes.sort(reverse=True)`. -/
def grouped_sizes (all_font_sizes : List ℤ) (min_size : ℤ) : List ℤ :=
  sortDesc (clusterLoop (filtered_sizes all_font_sizes min_size)
    (filtered_sizes all_font_sizes min_size) [])

/-- The double loop
`for i, grouped_size in enumerate(grouped_sizes, 1):
   for original_size in header_unique_sizes:
     if abs(original_size - grouped_size) <= 0.5:
       size_to_level[original_size] = i`
(the source fills `header_levels` and `size_to_level` with identical
assignments, so both dicts are this single construction). -/
def buildSizeToLevel (grouped header_unique : List ℤ) : List (ℤ × ℕ) :=
  (grouped.enumFrom 1).foldl
    (fun d ig => header_unique.foldl
      (fun d2 os => if |os - ig.2| ≤ 5 then dictInsert os ig.1 d2 else d2) d)
    []

/-- The dictionary returned by `_analyze_font_hierarchy` (the `FontHierarchy`
snapshot of the spec).  Note the source returns the *clustered* representatives
under the key `"filtered_sizes"`. -/
structure FontAnalysis where
  all_sizes : List ℤ
  header_sizes : List ℤ
  body_text_size : ℤ
  filtered_sizes : List ℤ
  header_levels : List (ℤ × ℕ)
  size_to_level : List (ℤ × ℕ)
  total_levels : ℕ
  font_frequency : List (ℤ × ℕ)
deriving DecidableEq

/-- `HeaderDetector._analyze_font_hierarchy(all_font_sizes, min_size)`. -/
def analyzeFontHierarchy (all_font_sizes : List ℤ) (min_size : ℤ) : FontAnalysis :=
  { all_sizes := all_unique_sizes all_font_sizes
    header_sizes := header_unique_sizes all_font_sizes min_size
    body_text_size := body_text_size all_font_sizes min_size
    filtered_sizes := grouped_sizes all_font_sizes min_size
    header_levels := buildSizeToLevel (grouped_sizes all_font_sizes min_size)
      (header_unique_sizes all_font_sizes min_size)
    size_to_level := buildSizeToLevel (grouped_sizes all_font_sizes min_size)
      (header_unique_sizes all_font_sizes min_size)
    total_levels := (grouped_sizes all_font_sizes min_size).length
    font_frequency := most_common5 all_font_sizes }

/-! ## Body-text heuristic (`HeaderDetector._is_likely_body_text`) -/

/-- The fixed stop-word / structural-word list of the source. -/
def body_indicators : List String :=
  ["the", "and", "of", "in", "to", "for", "with", "on", "at", "by",
   "this", "that", "these", "those", "such", "can", "will", "should",
   "figure", "table", "page", "section", "chapter", "appendix", "see"]

/-- `HeaderDetector._is_likely_body_text(text, font_size)`.  `font_size` is in
deci-points (`> 20.0` ↦ `> 200`); `font_size.getD 0 ≠ 0` models Python's
truthiness test `if font_size and font_size > 20.0` (both `None` and `0.0` are
falsy).  The character-count and word-count thresholds (200, 15, 8) and the
ratio thresholds 0.5/0.6 are unscaled, as in the source. -/
def isLikelyBodyText (text : String) (font_size : Option ℤ) : Bool :=
  if font_size.getD 0 ≠ 0 ∧ 200 < font_size.getD 0 then false
  else if 200 < pyLen text then true
  else
    let words := pySplitWs (pyLower text)
    if 15 < words.length then true
    else
      let body_count := words.countP (fun w => decide (w ∈ body_indicators))
      let threshold : ℚ := if 8 < words.length then 0.5 else 0.6
      decide ((words.length : ℚ) * threshold < (body_count : ℚ))

/-! ## Document model and extraction (`detect_headers_by_font_size`, first loop)

A document is pages of blocks; a block either carries lines of spans or has no
`"lines"` key (modelled as `none`); spans carry the fields the source reads. -/

/-- One text span as delivered by the page decoder: raw text, font size
(deci-points, on the 0.1pt grid the source rounds onto), font name, flags and
bounding box `(x0, y0, x1, y1)` in deci-units. -/
structure Span where
  text : String
  size : ℤ
  font : String
  flags : ℕ
  bbox : ℤ × ℤ × ℤ × ℤ
deriving DecidableEq

abbrev Line := List Span

/-- A block: `none` models a block without a `"lines"` key, which the source
skips. -/
abbrev Block := Option (List Line)

abbrev Page := List Block

abbrev Doc := List Page

/-- One entry of `all_text_elements`. -/
structure TextElement where
  text : String
  font_size : ℤ
  font_name : String
  is_bold : ℕ
  page : ℕ
  bbox : ℤ × ℤ × ℤ × ℤ
  x : ℤ
  y : ℤ
deriving DecidableEq, Inhabited

/-- The span loop body: `text = span["text"].strip(); if text: ...` — spans
whose stripped text is empty are skipped; kept spans are recorded with the
stripped text, rounded size, `flags & 16`, 1-based page number and
`x = bbox[0]`, `y = bbox[1]`. -/
def extractLine (page_num : ℕ) (line : Line) : List TextElement :=
  line.filterMap (fun span =>
    if pyStrip span.text = "" then none
    else some { text := pyStrip span.text, font_size := round1 span.size,
                font_name := span.font, is_bold := span.flags &&& 16,
                page := page_num + 1, bbox := span.bbox,
                x := span.bbox.1, y := span.bbox.2.1 })

/-- `if "lines" not in block: continue`, else iterate the lines. -/
def extractBlock (page_num : ℕ) (block : Block) : List TextElement :=
  match block with
  | none => []
  | some lines => lines.flatMap (extractLine page_num)

/-- All text elements of one page. -/
def extractPage (page_num : ℕ) (page : Page) : List TextElement :=
  page.flatMap (extractBlock page_num)

/-- `for page_num in range(len(doc))`, accumulating `all_text_elements`. -/
def extractPagesFrom : ℕ → Doc → List TextElement
  | _, [] => []
  | page_num, page :: rest => extractPage page_num page ++ extractPagesFrom (page_num + 1) rest

/-- `all_text_elements` of the whole document. -/
def extractElements (doc : Doc) : List TextElement := extractPagesFrom 0 doc

/-- `all_font_sizes`: the source appends `font_size` exactly when it appends a
text element, so the collected size list is the elementwise `font_size`. -/
def allFontSizes (doc : Doc) : List ℤ := (extractElements doc).map (·.font_size)

/-! ## Threshold auto-detection (`_auto_detect_header_threshold`) -/

/-- The size-scan of one line in `_auto_detect_header_threshold` (same
whitespace filter, collects only the rounded sizes). -/
def scanLineSizes (line : Line) : List ℤ :=
  line.filterMap (fun span =>
    if pyStrip span.text = "" then none else some (round1 span.size))

/-- The size-scan of one block. -/
def scanBlockSizes (block : Block) : List ℤ :=
  match block with
  | none => []
  | some lines => lines.flatMap scanLineSizes

/-- `for page_num in range(min(5, len(doc)))`: sizes of the first five pages. -/
def autoScanSizes (doc : Doc) : List ℤ :=
  (doc.take 5).flatMap (fun page => page.flatMap scanBlockSizes)

/-- `HeaderDetector._auto_detect_header_threshold`:  12.0pt ↦ 120,
25.0pt ↦ 250, `+ 1.0` ↦ `+ 10`; `most_common[0][0] if most_common else 12.0`. -/
def autoDetectHeaderThreshold (doc : Doc) : ℤ :=
  let all_font_sizes := autoScanSizes doc
  let unique_sizes := sortDesc (pyDedup all_font_sizes)
  let most_common := pyMostCommon 3 all_font_sizes
  let min_threshold : ℤ := 120
  let large_headers := unique_sizes.filter (fun s => decide (250 < s))
  if large_headers ≠ [] then min_threshold
  else (match most_common with | [] => (120 : ℤ) | p :: _ => p.1) + 10

/-! ## Line grouping (`_group_by_y_position`) -/

instance : IsTotal TextElement (fun u v : TextElement => u.y ≤ v.y) :=
  ⟨fun u v => le_total u.y v.y⟩

instance : IsTrans TextElement (fun u v : TextElement => u.y ≤ v.y) :=
  ⟨fun _ _ _ h1 h2 => le_trans h1 h2⟩

/-- The pages of the elements in first-encounter order: the key order of the
`pages` dict the source builds by insertion. -/
def pagesInOrder (elements : List TextElement) : List ℕ :=
  pyDedup (elements.map (·.page))

/-- The value list of the `pages` dict for key `p`: the elements of page `p`
in encounter order. -/
def pageElements (elements : List TextElement) (p : ℕ) : List TextElement :=
  elements.filter (fun e => decide (e.page = p))

/-- `sorted_elements = sorted(page_elements, key=lambda x: x["y"])` (stable). -/
def sortByY (l : List TextElement) : List TextElement :=
  List.insertionSort (fun u v : TextElement => u.y ≤ v.y) l

/-- The grouping scan: `current_y` is the anchor (the `y` of the first element
of the current group — it is only reset when a new group opens), and an element
within `tolerance` of the anchor joins the current group.  The source's
`if current_group:` guards are always true (groups start nonempty and only
grow), so the group is emitted unconditionally. -/
def groupScan (tolerance : ℤ) : ℤ → List TextElement → List TextElement → List (List TextElement)
  | _, current_group, [] => [current_group]
  | current_y, current_group, e :: rest =>
    if |e.y - current_y| ≤ tolerance then
      groupScan tolerance current_y (current_group ++ [e]) rest
    else
      current_group :: groupScan tolerance e.y [e] rest

/-- Grouping of one page: sort by `y`, then scan (`if not sorted_elements:
continue` on an empty page). -/
def groupPageElements (tolerance : ℤ) (page_elements : List TextElement) :
    List (List TextElement) :=
  match sortByY page_elements with
  | [] => []
  | e :: rest => groupScan tolerance e.y [e] rest

/-- `HeaderDetector._group_by_y_position(elements, tolerance)` (default
tolerance `1.0 ↦ 10`): partition by page in first-encounter order, group each
page, concatenate the page group lists. -/
def groupByYPosition (elements : List TextElement) (tolerance : ℤ) :
    List (List TextElement) :=
  if elements = [] then []
  else (pagesInOrder elements).flatMap
    (fun p => groupPageElements tolerance (pageElements elements p))

/-! ## Header classification (`detect_headers_by_font_size`, second half) -/

/-- One record of the `headers` list, including the `"_font_size"` entry the
source stores "Temporary for logging" (field `font_size_tmp` here; the dict
view including its underscore key is `headerToDict` below). -/
structure HeaderRec where
  header : String
  header_level_name : String
  page : ℕ
  header_level : ℕ
  font_size_tmp : ℤ
deriving DecidableEq

instance : IsTotal TextElement (fun u v : TextElement => u.x ≤ v.x) :=
  ⟨fun u v => le_total u.x v.x⟩

instance : IsTrans TextElement (fun u v : TextElement => u.x ≤ v.x) :=
  ⟨fun _ _ _ h1 h2 => le_trans h1 h2⟩

/-- `sorted(group, key=lambda x: x["x"])` (stable). -/
def sortByX (l : List TextElement) : List TextElement :=
  List.insertionSort (fun u v : TextElement => u.x ≤ v.x) l

/-- Python `max(iterable, key=...)` over a nonempty list: scans left to right
and keeps the first maximum (a later element replaces the champion only when
strictly greater). -/
def pyMaxBy (key : TextElement → ℤ) : TextElement → List TextElement → TextElement
  | c, [] => c
  | c, e :: rest => pyMaxBy key (if key c < key e then e else c) rest

/-- The per-group body of the classification loop: compute the group's maximal
font size; if it is a key of `header_levels`, build the combined text (fragment
texts sorted by `x`, joined by single spaces), apply the length window
`2 < len < 300` and the body-text heuristic, and emit the header record.
The grouper never produces an empty group; on `[]` (where Python's `max` would
raise) no candidate is produced. -/
def candidateFromGroup (fa : FontAnalysis) (group : List TextElement) : Option HeaderRec :=
  match group with
  | [] => none
  | e0 :: rest =>
    let max_font_size := listMax ((e0 :: rest).map (·.font_size))
    match dictGet? fa.header_levels max_font_size with
    | none => none
    | some header_level =>
      let combined_text := pyJoin " " ((sortByX (e0 :: rest)).map (·.text))
      if 2 < pyLen combined_text ∧ pyLen combined_text < 300 ∧
          isLikelyBodyText combined_text (some max_font_size) = false then
        some { header := combined_text,
               header_level_name := "level " ++ toString header_level,
               page := (pyMaxBy (·.font_size) e0 rest).page,
               header_level := header_level,
               font_size_tmp := max_font_size }
      else none

/-- The `headers` list: one candidate per qualifying group, in group order
(pages in first-encounter order, then group order within the page). -/
def headerCandidates (elements : List TextElement) (fa : FontAnalysis) : List HeaderRec :=
  (groupByYPosition elements 10).filterMap (candidateFromGroup fa)

/-- The dedup loop: keep a header only if its text was not seen before
(`seen_texts` is the set of texts of already-kept headers). -/
def dedupHeaders : List HeaderRec → List String → List HeaderRec
  | [], _ => []
  | h :: rest, seen =>
    if h.header ∈ seen then dedupHeaders rest seen
    else h :: dedupHeaders rest (h.header :: seen)

instance : IsTotal HeaderRec (fun a b : HeaderRec => a.page ≤ b.page) :=
  ⟨fun a b => le_total a.page b.page⟩

instance : IsTrans HeaderRec (fun a b : HeaderRec => a.page ≤ b.page) :=
  ⟨fun _ _ _ h1 h2 => le_trans h1 h2⟩

/-- `unique_headers.sort(key=lambda x: x["page"])` — Python's stable sort by
the page only. -/
def sortByPage (l : List HeaderRec) : List HeaderRec :=
  List.insertionSort (fun a b : HeaderRec => a.page ≤ b.page) l

/-- `unique_headers` before the final sort. -/
def dedupedList (elements : List TextElement) (min_size : ℤ) : List HeaderRec :=
  dedupHeaders
    (headerCandidates elements (analyzeFontHierarchy (elements.map (·.font_size)) min_size)) []

/-- The classification pipeline from extracted elements: analyze the font
hierarchy over all element sizes, group, classify, dedup, sort by page. -/
def detectHeadersFromElements (elements : List TextElement) (min_size : ℤ) : List HeaderRec :=
  sortByPage (dedupedList elements min_size)

/-- `HeaderDetector.detect_headers_by_font_size(pdf_path, min_size)` with the
document contents already decoded (path resolution and decode failures are
outside the pure model). -/
def detectHeaders (doc : Doc) (min_size : ℤ) : List HeaderRec :=
  detectHeadersFromElements (extractElements doc) min_size

/-- The pre-dedup `headers` list of a full run, in page-then-group order. -/
def candidateList (doc : Doc) (min_size : ℤ) : List HeaderRec :=
  headerCandidates (extractElements doc) (analyzeFontHierarchy (allFontSizes doc) min_size)

/-- Detection with the auto-detected threshold (`min_size=None` path). -/
def detectHeadersAuto (doc : Doc) : List HeaderRec :=
  detectHeaders doc (autoDetectHeaderThreshold doc)

/-! ## Serialized output (`save_headers_to_json` / `get_headers_json`) -/

/-- JSON-able values occurring in a header record. -/
inductive JValue where
  | s : String → JValue
  | n : ℤ → JValue
  | i : ℕ → JValue
deriving DecidableEq

/-- The dict literal built for each detected header (insertion order as in the
source), including the temporary `"_font_size"` entry. -/
def headerToDict (h : HeaderRec) : List (String × JValue) :=
  [("header", JValue.s h.header),
   ("header_level_name", JValue.s h.header_level_name),
   ("page", JValue.i h.page),
   ("header_level", JValue.i h.header_level),
   ("_font_size", JValue.n h.font_size_tmp)]

/-- `{k: v for k, v in header.items() if not k.startswith('_')}`. -/
def cleanHeaderDict (d : List (String × JValue)) : List (String × JValue) :=
  d.filter (fun kv => !(pyStartsUnderscore kv.1))

/-- `clean_headers` as built by both `save_headers_to_json` and
`get_headers_json` before serialization. -/
def cleanHeadersOutput (headers : List HeaderRec) : List (List (String × JValue)) :=
  headers.map (fun h => cleanHeaderDict (headerToDict h))

/-- The record list `get_headers_json` serializes (and `save_headers_to_json`
persists) for a detection run. -/
def getHeadersDicts (doc : Doc) (min_size : ℤ) : List (List (String × JValue)) :=
  cleanHeadersOutput (detectHeaders doc min_size)

/-- Remove every span whose stripped text is empty, keeping the page/block/line
structure: the reference document against which whitespace-span irrelevance is
stated. -/
def stripWhitespaceSpans (doc : Doc) : Doc :=
  doc.map (fun page => page.map (fun block => block.map (fun lines =>
    lines.map (fun line => line.filter (fun span => decide (¬ pyStrip span.text = ""))))))

/-! ## Auxiliary definitions for the proofs -/

/-- The level the double loop of `buildSizeToLevel` leaves for size `s`: the
index of the *last* enumerated pair `(i, grouped_size)` with
`s ∈ header_unique` and `|s - grouped_size| ≤ 0.5pt` (later dict assignments
overwrite earlier ones). -/
def lastMatchP (s : ℤ) (header_unique : List ℤ) : List (ℕ × ℤ) → Option ℕ
  | [] => none
  | ig :: rest =>
    match lastMatchP s header_unique rest with
    | some j => some j
    | none => if s ∈ header_unique ∧ |s - ig.2| ≤ 5 then some ig.1 else none

/-- Scenario fragment at `y = 100.2` (↦ 1002). -/
def fragA : TextElement :=
  { text := "Heading", font_size := 240, font_name := "F", is_bold := 0,
    page := 1, bbox := (0, 1002, 10, 1012), x := 0, y := 1002 }

/-- Scenario fragment at `y = 100.9` (↦ 1009), same page. -/
def fragB : TextElement :=
  { text := "continued", font_size := 240, font_name := "F", is_bold := 0,
    page := 1, bbox := (12, 1009, 20, 1019), x := 12, y := 1009 }

/-- Scenario fragment at `y = 105` (↦ 1050), same page. -/
def fragC : TextElement :=
  { text := "next line", font_size := 120, font_name := "F", is_bold := 0,
    page := 1, bbox := (0, 1050, 10, 1060), x := 0, y := 1050 }

/-- A two-page document with a 24.0pt "Introduction" heading on page 1 and a
10.0pt body span on page 2. -/
def exDocIntro : Doc :=
  [[some [[{ text := "Introduction", size := 240, font := "F1", flags := 0,
             bbox := (100, 500, 300, 520) }]]],
   [some [[{ text := "hello", size := 100, font := "F1", flags := 0,
             bbox := (100, 200, 300, 210) }]]]]

/-- The header record detection finds in `exDocIntro` at threshold 12.0pt. -/
def hIntro : HeaderRec :=
  { header := "Introduction", header_level_name := "level 1", page := 1,
    header_level := 1, font_size_tmp := 240 }

/-- A document whose only span is 10.0pt body text. -/
def exDocBody : Doc :=
  [[some [[{ text := "hello world", size := 100, font := "F1", flags := 0,
             bbox := (100, 200, 300, 210) }]]]]

/-! # Theorems

## Basic facts about the Python helpers -/

theorem mem_pyDedupAux [DecidableEq α] (x : α) :
    ∀ (l seen : List α), x ∈ pyDedupAux l seen ↔ x ∈ l ∧ x ∉ seen := by
  intro l
  induction l with
  | nil => intro seen; simp [pyDedupAux]
  | cons y ys ih =>
    intro seen
    by_cases hy : y ∈ seen
    · rw [pyDedupAux, if_pos hy, ih]
      constructor
      · rintro ⟨hx, hs⟩; exact ⟨List.mem_cons_of_mem _ hx, hs⟩
      · rintro ⟨hx, hs⟩
        rcases List.mem_cons.mp hx with rfl | hx
        · exact absurd hy hs
        · exact ⟨hx, hs⟩
    · rw [pyDedupAux, if_neg hy]
      constructor
      · intro hx
        rcases List.mem_cons.mp hx with rfl | hx
        · exact ⟨List.mem_cons_self _ _, hy⟩
        · rcases (ih _).mp hx with ⟨h1, h2⟩
          exact ⟨List.mem_cons_of_mem _ h1, fun hs => h2 (List.mem_cons_of_mem _ hs)⟩
      · rintro ⟨hx, hs⟩
        rcases List.mem_cons.mp hx with rfl | hx
        · exact List.mem_cons_self _ _
        · by_cases hxy : x = y
          · subst hxy; exact List.mem_cons_self _ _
          · refine List.mem_cons_of_mem _ ((ih _).mpr ⟨hx, fun hmem => ?_⟩)
            rcases List.mem_cons.mp hmem with h | h
            · exact hxy h
            · exact hs h

theorem mem_pyDedup [DecidableEq α] (x : α) (l : List α) : x ∈ pyDedup l ↔ x ∈ l := by
  rw [pyDedup, mem_pyDedupAux]; simp

theorem pyDedupAux_sublist [DecidableEq α] :
    ∀ (l seen : List α), (pyDedupAux l seen).Sublist l := by
  intro l
  induction l with
  | nil => intro seen; exact List.Sublist.refl _
  | cons y ys ih =>
    intro seen
    rw [pyDedupAux]
    by_cases hy : y ∈ seen
    · rw [if_pos hy]; exact (ih seen).cons y
    · rw [if_neg hy]; exact (ih (y :: seen)).cons₂ y

theorem pyDedupAux_nodup [DecidableEq α] :
    ∀ (l seen : List α), (pyDedupAux l seen).Nodup := by
  intro l
  induction l with
  | nil => intro seen; exact List.nodup_nil
  | cons y ys ih =>
    intro seen
    rw [pyDedupAux]
    by_cases hy : y ∈ seen
    · rw [if_pos hy]; exact ih seen
    · rw [if_neg hy]
      refine List.nodup_cons.mpr ⟨fun hmem => ?_, ih (y :: seen)⟩
      exact ((mem_pyDedupAux y ys (y :: seen)).mp hmem).2 (List.mem_cons_self _ _)

theorem mem_sortDesc (x : ℤ) (l : List ℤ) : x ∈ sortDesc l ↔ x ∈ l :=
  (List.perm_insertionSort _ l).mem_iff

theorem sortDesc_sorted (l : List ℤ) :
    (sortDesc l).Pairwise (fun a b : ℤ => b ≤ a) :=
  List.sorted_insertionSort _ l

theorem foldl_max_choice : ∀ (xs : List ℤ) (acc : ℤ),
    xs.foldl max acc = acc ∨ xs.foldl max acc ∈ xs := by
  intro xs
  induction xs with
  | nil => intro acc; left; rfl
  | cons y ys ih =>
    intro acc
    rcases ih (max acc y) with h | h
    · rcases max_choice acc y with hm | hm
      · left; rw [List.foldl_cons, h, hm]
      · right; rw [List.foldl_cons, h, hm]; exact List.mem_cons_self _ _
    · right; rw [List.foldl_cons]; exact List.mem_cons_of_mem _ h

theorem listMax_mem : ∀ (l : List ℤ), l ≠ [] → listMax l ∈ l := by
  intro l h
  match l with
  | x :: xs =>
    show xs.foldl max x ∈ x :: xs
    rcases foldl_max_choice xs x with h1 | h1
    · rw [h1]; exact List.mem_cons_self _ _
    · exact List.mem_cons_of_mem _ h1

theorem clusterLoop_subset :
    ∀ (F it used : List ℤ) (x : ℤ), x ∈ clusterLoop F it used → x ∈ F := by
  intro F it
  induction it with
  | nil => intro used x hx; simp [clusterLoop] at hx
  | cons s rest ih =>
    intro used x hx
    simp only [clusterLoop] at hx
    by_cases hs : s ∈ used
    · rw [if_pos hs] at hx; exact ih _ _ hx
    · rw [if_neg hs] at hx
      by_cases hnil : F.filter (fun t => decide (|t - s| ≤ 5 ∧ t ∉ used)) = []
      · rw [if_pos hnil] at hx; exact ih _ _ hx
      · rw [if_neg hnil] at hx
        rcases List.mem_cons.mp hx with rfl | hx
        · exact (List.mem_filter.mp (listMax_mem _ hnil)).1
        · exact ih _ _ hx

/-! ## Claim C2 -/

/-- Claim C2 as frozen is false on the code: with font sizes `[13.0]` (↦ 130)
and `min_size = 12.0` (↦ 120) there is no frequent body-text candidate, so the
fallback `body_text_size = min_size` applies and `filtered_sizes` keeps 13.0pt,
which is neither `> 20.0pt` nor `> body_text_size + 2.0pt = 14.0pt`. -/
theorem filtered_sizes_margin_counterexample :
    (130 : ℤ) ∈ (analyzeFontHierarchy [130] 120).filtered_sizes
    ∧ ¬(200 < (130 : ℤ)
        ∨ (analyzeFontHierarchy [130] 120).body_text_size + 20 < (130 : ℤ)) := by
  decide

/-- Claim C2 (amended): every size the analyzer keeps for hierarchy levels is
strictly greater than 20.0pt (↦ 200) or strictly greater than
`body_text_size + 2.0pt` (↦ +20) whenever a frequent body-text candidate
exists; in the fallback case (no candidate, `body_text_size = min_size`) every
kept size is only guaranteed to be strictly greater than `min_size`. -/
theorem filtered_sizes_margin_amended (sizes : List ℤ) (min_size s : ℤ)
    (hs : s ∈ (analyzeFontHierarchy sizes min_size).filtered_sizes) :
    200 < s ∨ (analyzeFontHierarchy sizes min_size).body_text_size + 20 < s
      ∨ (body_text_candidates sizes = [] ∧ min_size < s) := by
  have h1 : s ∈ clusterLoop (filtered_sizes sizes min_size)
      (filtered_sizes sizes min_size) [] := by
    have h0 : s ∈ grouped_sizes sizes min_size := hs
    rw [grouped_sizes, mem_sortDesc] at h0
    exact h0
  have h2 : s ∈ filtered_sizes sizes min_size := clusterLoop_subset _ _ _ _ h1
  by_cases hc : body_text_candidates sizes = []
  · right; right
    refine ⟨hc, ?_⟩
    rw [filtered_sizes, if_pos hc, header_unique_sizes, mem_sortDesc, mem_pyDedup,
      header_font_sizes, List.mem_filter] at h2
    exact of_decide_eq_true h2.2
  · rw [filtered_sizes, if_neg hc, List.mem_filter] at h2
    have h3 := of_decide_eq_true h2.2
    have hbody : (analyzeFontHierarchy sizes min_size).body_text_size
        = body_text_size sizes min_size := rfl
    rw [hbody]
    rcases h3 with h | h
    · exact Or.inl h
    · exact Or.inr (Or.inl h)

/-- Witness for the amended C2 at sizes `[30.0, 24.0]` (↦ `[300, 240]`),
`min_size = 12.0` (↦ 120), `s = 30.0` (↦ 300). -/
theorem filtered_sizes_margin_witness :
    200 < (300 : ℤ) ∨ (analyzeFontHierarchy [300, 240] 120).body_text_size + 20 < 300
      ∨ (body_text_candidates [300, 240] = [] ∧ (120 : ℤ) < 300) :=
  filtered_sizes_margin_amended [300, 240] 120 300 (by decide)

/-! ## Claim C5 -/

/-- Claim C5: for every text and every font size strictly greater than 20.0pt
(↦ 200), `_is_likely_body_text` returns `False` regardless of the text — rule 1
fires before the length, token-count and stop-word-ratio rules. -/
theorem body_text_rule1_short_circuit (text : String) (fs : ℤ) (h : 200 < fs) :
    isLikelyBodyText text (some fs) = false := by
  have h0 : fs ≠ 0 := by omega
  simp only [isLikelyBodyText, Option.getD_some]
  rw [if_pos ⟨h0, h⟩]

/-- Witness for C5: a long stop-word-laden sentence at 24.0pt (↦ 240) is still
not body text. -/
theorem body_text_rule1_witness :
    isLikelyBodyText
      "the and of in to for with on at by this that these those such can will see"
      (some 240) = false :=
  body_text_rule1_short_circuit _ 240 (by decide)

/-! ## Claim C9 -/

/-- Claim C9: if no extracted font size exceeds the threshold, detection
completes with the empty record list — a value, not an error (the model of a
run that opened and decoded the document is total, so the empty outcome is
distinguishable from the `FileNotFoundError`/decode failures raised before
analysis begins).  This covers the auto-detected threshold by instantiating
`min_size := autoDetectHeaderThreshold doc`. -/
theorem empty_result_is_success (doc : Doc) (min_size : ℤ)
    (h : ∀ s ∈ allFontSizes doc, s ≤ min_size) :
    detectHeaders doc min_size = [] := by
  have hfs : header_font_sizes (allFontSizes doc) min_size = [] := by
    rw [header_font_sizes, List.filter_eq_nil_iff]
    intro s hsmem
    have hs' : s ∈ allFontSizes doc := by
      simpa [rounded_sizes, round1] using hsmem
    simp only [decide_eq_true_eq]
    exact not_lt.mpr (h s hs')
  have hhu : header_unique_sizes (allFontSizes doc) min_size = [] := by
    rw [header_unique_sizes, hfs]; rfl
  have hfilt : filtered_sizes (allFontSizes doc) min_size = [] := by
    rw [filtered_sizes]
    split
    · exact hhu
    · rw [hhu]; rfl
  have hgrp : grouped_sizes (allFontSizes doc) min_size = [] := by
    rw [grouped_sizes, hfilt]; rfl
  have hdict : buildSizeToLevel (grouped_sizes (allFontSizes doc) min_size)
      (header_unique_sizes (allFontSizes doc) min_size) = [] := by
    rw [hgrp]; rfl
  have hnone : ∀ group, candidateFromGroup
      (analyzeFontHierarchy (allFontSizes doc) min_size) group = none := by
    intro group
    cases group with
    | nil => rfl
    | cons e0 rest =>
      have hget : dictGet? (analyzeFontHierarchy (allFontSizes doc) min_size).header_levels
          (listMax ((e0 :: rest).map (·.font_size))) = none := by
        show dictGet? (buildSizeToLevel _ _) _ = none
        rw [hdict]; rfl
      simp only [candidateFromGroup, hget]
  have hcand : headerCandidates (extractElements doc)
      (analyzeFontHierarchy (allFontSizes doc) min_size) = [] :=
    List.filterMap_eq_nil_iff.mpr (fun g _ => hnone g)
  show sortByPage (dedupHeaders (headerCandidates (extractElements doc)
      (analyzeFontHierarchy ((extractElements doc).map (·.font_size)) min_size)) []) = []
  rw [show analyzeFontHierarchy ((extractElements doc).map (·.font_size)) min_size
      = analyzeFontHierarchy (allFontSizes doc) min_size from rfl]
  rw [hcand]; rfl

/-- Witness for C9: a document whose only span is 10.0pt text yields the empty
result at threshold 12.0pt. -/
theorem empty_result_witness : detectHeaders exDocBody 120 = [] :=
  empty_result_is_success exDocBody 120 (by decide)

/-! ## Claim C6 -/

/-- Claim C6: every record in the serialized output (both the
`save_headers_to_json` and the `get_headers_json` paths build
`cleanHeadersOutput`) carries exactly the keys `header`, `header_level_name`,
`page`, `header_level` — the underscore-prefixed temporary `_font_size` never
appears. -/
theorem output_fields_exact (doc : Doc) (min_size : ℤ) :
    (getHeadersDicts doc min_size).Forall
      (fun d => d.map Prod.fst = ["header", "header_level_name", "page", "header_level"]) := by
  rw [List.forall_iff_forall_mem]
  intro d hd
  rw [getHeadersDicts, cleanHeadersOutput] at hd
  rcases List.mem_map.mp hd with ⟨h, _, rfl⟩
  rfl

/-! ## Claim C4 -/

theorem filter_orderedInsert_page (a : HeaderRec) (l : List HeaderRec) (p : ℕ) :
    (List.orderedInsert (fun x y : HeaderRec => x.page ≤ y.page) a l).filter
        (fun h => decide (h.page = p))
      = if a.page = p
        then a :: l.filter (fun h => decide (h.page = p))
        else l.filter (fun h => decide (h.page = p)) := by
  induction l with
  | nil =>
    by_cases hp : a.page = p
    · rw [if_pos hp]; simp [List.orderedInsert, hp]
    · rw [if_neg hp]; simp [List.orderedInsert, hp]
  | cons b l ih =>
    rw [List.orderedInsert]
    by_cases hab : a.page ≤ b.page
    · rw [if_pos hab]
      by_cases hp : a.page = p
      · rw [if_pos hp]; simp [List.filter_cons, hp]
      · rw [if_neg hp]; simp [List.filter_cons, hp]
    · rw [if_neg hab]
      have hba : b.page < a.page := Nat.lt_of_not_le hab
      by_cases hp : a.page = p
      · have hbp : ¬ b.page = p := by omega
        rw [if_pos hp]
        simp [List.filter_cons, hbp, ih, hp]
      · rw [if_neg hp]
        by_cases hbp : b.page = p
        · simp [List.filter_cons, hbp, ih, hp]
        · simp [List.filter_cons, hbp, ih, hp]

theorem sortByPage_filter_page (l : List HeaderRec) (p : ℕ) :
    (sortByPage l).filter (fun h => decide (h.page = p))
      = l.filter (fun h => decide (h.page = p)) := by
  induction l with
  | nil => rfl
  | cons a l ih =>
    have step : sortByPage (a :: l)
        = List.orderedInsert (fun x y : HeaderRec => x.page ≤ y.page) a (sortByPage l) := rfl
    rw [step, filter_orderedInsert_page, ih]
    by_cases hp : a.page = p
    · rw [if_pos hp, List.filter_cons]; simp [hp]
    · rw [if_neg hp, List.filter_cons]; simp [hp]

/-- Claim C4: the classifier's output is non-decreasing in `page`, and the
final sort is stable and keyed by `page` only: filtering the output to any
fixed page gives exactly the same records, in the same order, as filtering the
pre-sort (deduplicated) list to that page. -/
theorem page_order_invariant (doc : Doc) (min_size : ℤ) :
    (detectHeaders doc min_size).Pairwise (fun a b : HeaderRec => a.page ≤ b.page)
    ∧ ∀ p : ℕ, (detectHeaders doc min_size).filter (fun h => decide (h.page = p))
        = (dedupedList (extractElements doc) min_size).filter (fun h => decide (h.page = p)) := by
  constructor
  · exact List.sorted_insertionSort _ _
  · intro p
    exact sortByPage_filter_page _ p

/-! ## Claim C10 -/

theorem filterMap_strip_filter {β : Type} (g : Span → β) : ∀ l : Line,
    (l.filter (fun s => decide (¬ pyStrip s.text = ""))).filterMap
        (fun s => if pyStrip s.text = "" then none else some (g s))
      = l.filterMap (fun s => if pyStrip s.text = "" then none else some (g s)) := by
  intro l
  induction l with
  | nil => rfl
  | cons s l ih =>
    by_cases hs : pyStrip s.text = ""
    · have h1 : (decide (¬ pyStrip s.text = "")) = false := by simp [hs]
      have h2 : (if pyStrip s.text = "" then none else some (g s)) = (none : Option β) :=
        if_pos hs
      rw [List.filter_cons, h1]
      simp only [Bool.false_eq_true, if_false]
      rw [ih, List.filterMap_cons, h2]
    · have h1 : (decide (¬ pyStrip s.text = "")) = true := by simp [hs]
      have h2 : (if pyStrip s.text = "" then none else some (g s)) = some (g s) :=
        if_neg hs
      rw [List.filter_cons, h1]
      simp only [if_true]
      rw [List.filterMap_cons, h2, List.filterMap_cons, h2, ih]

theorem extractLine_strip (n : ℕ) (line : Line) :
    extractLine n (line.filter (fun span => decide (¬ pyStrip span.text = "")))
      = extractLine n line :=
  filterMap_strip_filter _ line

theorem extractBlock_strip (n : ℕ) (block : Block) :
    extractBlock n (block.map (fun lines =>
        lines.map (fun line => line.filter (fun span => decide (¬ pyStrip span.text = "")))))
      = extractBlock n block := by
  cases block with
  | none => rfl
  | some lines =>
    show (lines.map _).flatMap (extractLine n) = lines.flatMap (extractLine n)
    induction lines with
    | nil => rfl
    | cons line rest ih =>
      simp only [List.map_cons, List.flatMap_cons]
      rw [extractLine_strip, ih]

theorem extractPage_cons (n : ℕ) (b : Block) (bs : Page) :
    extractPage n (b :: bs) = extractBlock n b ++ extractPage n bs := by
  rw [extractPage, extractPage, List.flatMap_cons]

theorem extractPage_strip (n : ℕ) (page : Page) :
    extractPage n (page.map (fun block => block.map (fun lines =>
        lines.map (fun line => line.filter (fun span => decide (¬ pyStrip span.text = ""))))))
      = extractPage n page := by
  induction page with
  | nil => rfl
  | cons block rest ih =>
    simp only [List.map_cons]
    rw [extractPage_cons, extractPage_cons, extractBlock_strip, ih]

theorem extractPagesFrom_strip : ∀ (n : ℕ) (doc : Doc),
    extractPagesFrom n (stripWhitespaceSpans doc) = extractPagesFrom n doc := by
  intro n doc
  induction doc generalizing n with
  | nil => rfl
  | cons page rest ih =>
    have hstep : stripWhitespaceSpans (page :: rest)
        = (page.map (fun block => block.map (fun lines =>
            lines.map (fun line => line.filter (fun span => decide (¬ pyStrip span.text = ""))))))
          :: stripWhitespaceSpans rest := rfl
    rw [hstep]
    show extractPage n _ ++ extractPagesFrom (n + 1) (stripWhitespaceSpans rest)
      = extractPage n page ++ extractPagesFrom (n + 1) rest
    rw [extractPage_strip, ih]

theorem scanLineSizes_strip (line : Line) :
    scanLineSizes (line.filter (fun span => decide (¬ pyStrip span.text = "")))
      = scanLineSizes line :=
  filterMap_strip_filter _ line

theorem scanBlockSizes_strip (block : Block) :
    scanBlockSizes (block.map (fun lines =>
        lines.map (fun line => line.filter (fun span => decide (¬ pyStrip span.text = "")))))
      = scanBlockSizes block := by
  cases block with
  | none => rfl
  | some lines =>
    show (lines.map _).flatMap scanLineSizes = lines.flatMap scanLineSizes
    induction lines with
    | nil => rfl
    | cons line rest ih =>
      simp only [List.map_cons, List.flatMap_cons]
      rw [scanLineSizes_strip, ih]

theorem autoScanSizes_strip (doc : Doc) :
    autoScanSizes (stripWhitespaceSpans doc) = autoScanSizes doc := by
  rw [autoScanSizes, autoScanSizes, stripWhitespaceSpans, ← List.map_take]
  induction doc.take 5 with
  | nil => rfl
  | cons page rest ih =>
    simp only [List.map_cons, List.flatMap_cons]
    rw [ih]
    congr 1
    induction page with
    | nil => rfl
    | cons block bs ihb =>
      simp only [List.map_cons, List.flatMap_cons]
      rw [scanBlockSizes_strip, ihb]

/-- Claim C10: spans whose text strips to the empty string are discarded at
extraction time and contribute nothing afterwards — removing them from the
document changes neither the extracted elements, the font-size multiset, the
auto-detected threshold, nor any detection result. -/
theorem whitespace_spans_irrelevant (doc : Doc) (min_size : ℤ) :
    extractElements (stripWhitespaceSpans doc) = extractElements doc
    ∧ allFontSizes (stripWhitespaceSpans doc) = allFontSizes doc
    ∧ autoScanSizes (stripWhitespaceSpans doc) = autoScanSizes doc
    ∧ autoDetectHeaderThreshold (stripWhitespaceSpans doc) = autoDetectHeaderThreshold doc
    ∧ detectHeaders (stripWhitespaceSpans doc) min_size = detectHeaders doc min_size
    ∧ detectHeadersAuto (stripWhitespaceSpans doc) = detectHeadersAuto doc := by
  have hex : extractElements (stripWhitespaceSpans doc) = extractElements doc :=
    extractPagesFrom_strip 0 doc
  have hall : allFontSizes (stripWhitespaceSpans doc) = allFontSizes doc := by
    rw [allFontSizes, allFontSizes, hex]
  have hscan : autoScanSizes (stripWhitespaceSpans doc) = autoScanSizes doc :=
    autoScanSizes_strip doc
  have hthr : autoDetectHeaderThreshold (stripWhitespaceSpans doc)
      = autoDetectHeaderThreshold doc := by
    simp only [autoDetectHeaderThreshold, hscan]
  have hdet : ∀ ms : ℤ, detectHeaders (stripWhitespaceSpans doc) ms = detectHeaders doc ms := by
    intro ms
    rw [detectHeaders, detectHeaders, hex]
  refine ⟨hex, hall, hscan, hthr, hdet min_size, ?_⟩
  rw [detectHeadersAuto, detectHeadersAuto, hthr, hdet]

/-! ## Claim C8 -/

theorem groupScan_flatten (tol : ℤ) :
    ∀ (rest : List TextElement) (cy : ℤ) (g : List TextElement),
      (groupScan tol cy g rest).flatten = g ++ rest := by
  intro rest
  induction rest with
  | nil => intro cy g; simp [groupScan]
  | cons e rest ih =>
    intro cy g
    rw [groupScan]
    by_cases h : |e.y - cy| ≤ tol
    · rw [if_pos h, ih]
      simp
    · rw [if_neg h, List.flatten_cons, ih]
      simp

theorem groupScan_exists_first (tol : ℤ) :
    ∀ (rest : List TextElement) (cy : ℤ) (g : List TextElement),
      ∃ ext out, groupScan tol cy g rest = (g ++ ext) :: out := by
  intro rest
  induction rest with
  | nil => intro cy g; exact ⟨[], [], by simp [groupScan]⟩
  | cons e rest ih =>
    intro cy g
    rw [groupScan]
    by_cases h : |e.y - cy| ≤ tol
    · rw [if_pos h]
      obtain ⟨ext, out, heq⟩ := ih cy (g ++ [e])
      exact ⟨[e] ++ ext, out, by rw [heq, List.append_assoc]⟩
    · rw [if_neg h]
      exact ⟨[], groupScan tol e.y [e] rest, by simp⟩

theorem groupScan_anchored (tol : ℤ) :
    ∀ (rest : List TextElement) (a : TextElement) (t : List TextElement),
      (∀ e ∈ t, |e.y - a.y| ≤ tol) →
      ∀ group ∈ groupScan tol a.y (a :: t) rest,
        ∃ b s, group = b :: s ∧ ∀ e ∈ s, |e.y - b.y| ≤ tol := by
  intro rest
  induction rest with
  | nil =>
    intro a t ht group hg
    simp only [groupScan, List.mem_singleton] at hg
    subst hg
    exact ⟨a, t, rfl, ht⟩
  | cons e rest ih =>
    intro a t ht group hg
    rw [groupScan] at hg
    by_cases h : |e.y - a.y| ≤ tol
    · rw [if_pos h] at hg
      have hform : (a :: t) ++ [e] = a :: (t ++ [e]) := rfl
      rw [hform] at hg
      refine ih a (t ++ [e]) ?_ group hg
      intro x hx
      rcases List.mem_append.mp hx with hx | hx
      · exact ht x hx
      · rw [List.mem_singleton.mp hx]
        exact h
    · rw [if_neg h] at hg
      rcases List.mem_cons.mp hg with rfl | hg
      · exact ⟨a, t, rfl, ht⟩
      · exact ih e [] (by simp) group hg

theorem groupScan_chain (tol : ℤ) :
    ∀ (rest : List TextElement) (a : TextElement) (t : List TextElement),
      List.Chain' (fun g g' => tol < |g'.headI.y - g.headI.y|)
        (groupScan tol a.y (a :: t) rest) := by
  intro rest
  induction rest with
  | nil => intro a t; simp [groupScan]
  | cons e rest ih =>
    intro a t
    rw [groupScan]
    by_cases h : |e.y - a.y| ≤ tol
    · rw [if_pos h]
      have hform : (a :: t) ++ [e] = a :: (t ++ [e]) := rfl
      rw [hform]
      exact ih a (t ++ [e])
    · rw [if_neg h]
      obtain ⟨ext, out, heq⟩ := groupScan_exists_first tol rest e.y [e]
      rw [heq, List.chain'_cons]
      constructor
      · show tol < |(([e] ++ ext).headI).y - ((a :: t).headI).y|
        have h1 : ([e] ++ ext).headI = e := rfl
        have h2 : (a :: t).headI = a := rfl
        rw [h1, h2]
        exact not_le.mp h
      · rw [← heq]
        exact ih e []

theorem flatMap_flatten {α β : Type} (l : List α) (f : α → List (List β)) :
    (l.flatMap f).flatten = l.flatMap (fun a => (f a).flatten) := by
  induction l with
  | nil => rfl
  | cons a l ih => rw [List.flatMap_cons, List.flatMap_cons, List.flatten_append, ih]

theorem flatMap_congr_left {α β : Type} :
    ∀ (l : List α) (f g : α → List β), (∀ a ∈ l, f a = g a) → l.flatMap f = l.flatMap g := by
  intro l f g h
  induction l with
  | nil => rfl
  | cons a l ih =>
    rw [List.flatMap_cons, List.flatMap_cons, h a (List.mem_cons_self _ _),
      ih (fun a ha => h a (List.mem_cons_of_mem _ ha))]

theorem flatMap_perm_congr {α β : Type} (l : List α) (f g : α → List β)
    (h : ∀ a ∈ l, (f a).Perm (g a)) : (l.flatMap f).Perm (l.flatMap g) := by
  induction l with
  | nil => exact List.Perm.refl _
  | cons a l ih =>
    rw [List.flatMap_cons, List.flatMap_cons]
    exact (h a (List.mem_cons_self _ _)).append
      (ih (fun a ha => h a (List.mem_cons_of_mem _ ha)))

theorem partition_perm :
    ∀ (ks : List ℕ) (l : List TextElement), ks.Nodup → (∀ e ∈ l, e.page ∈ ks) →
      (ks.flatMap (fun p => l.filter (fun e => decide (e.page = p)))).Perm l := by
  intro ks
  induction ks with
  | nil =>
    intro l _ hcov
    cases l with
    | nil => exact List.Perm.refl _
    | cons e l => exact absurd (hcov e (List.mem_cons_self _ _)) (List.not_mem_nil _)
  | cons p ks ih =>
    intro l hnd hcov
    rw [List.flatMap_cons]
    have hrw : ∀ k ∈ ks, l.filter (fun e => decide (e.page = k))
        = (l.filter (fun e => !(decide (e.page = p)))).filter (fun e => decide (e.page = k)) := by
      intro k hk
      have hkp : k ≠ p := fun hh => (List.nodup_cons.mp hnd).1 (hh ▸ hk)
      rw [List.filter_filter]
      apply List.filter_congr
      intro e _
      by_cases hep : e.page = p
      · have hpk : ¬ p = k := fun hh => hkp hh.symm
        simp [hep, hpk]
      · simp [hep]
    rw [flatMap_congr_left ks _ _ hrw]
    have hcov' : ∀ e ∈ l.filter (fun e => !(decide (e.page = p))), e.page ∈ ks := by
      intro e he
      have h1 := List.mem_filter.mp he
      have h2 : ¬ e.page = p := by
        have := h1.2
        simp only [Bool.not_eq_true', decide_eq_false_iff_not] at this
        exact this
      rcases List.mem_cons.mp (hcov e h1.1) with hh | hh
      · exact absurd hh h2
      · exact hh
    have hl' := ih (l.filter (fun e => !(decide (e.page = p)))) (List.nodup_cons.mp hnd).2 hcov'
    exact List.Perm.trans ((List.Perm.refl _).append hl') (List.filter_append_perm _ l)

theorem groupPage_flatten (tol : ℤ) (pe : List TextElement) :
    (groupPageElements tol pe).flatten = sortByY pe := by
  rcases hsy : sortByY pe with _ | ⟨e, rest⟩
  · simp only [groupPageElements, hsy]
    rfl
  · simp only [groupPageElements, hsy]
    rw [groupScan_flatten]
    rfl

/-- Claim C8: the grouper partitions the fragments by page (in first-encounter
order, which detection feeds in ascending page order); within a page it sorts
by `y` ascending and splits that sorted run into contiguous groups; every
non-anchor member of a group lies within `tolerance` of the `y` of the group's
*first* member (the anchor, never updated), and each new group's anchor is more
than `tolerance` away from the previous anchor; all members of a group share
one page.  The concrete scenario (`y = 100.2, 100.9, 105` ↦ `1002, 1009, 1050`,
tolerance `1.0 ↦ 10`) yields the two groups of the claim. -/
theorem line_grouping_spec :
    (∀ (elements : List TextElement) (tol : ℤ),
        groupByYPosition elements tol
          = (pagesInOrder elements).flatMap
              (fun p => groupPageElements tol (pageElements elements p))
        ∧ ((groupByYPosition elements tol).flatten).Perm elements
        ∧ (∀ p, (groupPageElements tol (pageElements elements p)).flatten
              = sortByY (pageElements elements p))
        ∧ (∀ p, (sortByY (pageElements elements p)).Pairwise
              (fun u v : TextElement => u.y ≤ v.y))
        ∧ (∀ group ∈ groupByYPosition elements tol, ∃ b s, group = b :: s
              ∧ (∀ e ∈ s, |e.y - b.y| ≤ tol) ∧ (∀ e ∈ group, e.page = b.page))
        ∧ (∀ p, List.Chain' (fun g g' => tol < |g'.headI.y - g.headI.y|)
              (groupPageElements tol (pageElements elements p))))
    ∧ groupByYPosition [fragA, fragB, fragC] 10 = [[fragA, fragB], [fragC]] := by
  constructor
  · intro elements tol
    have heq : groupByYPosition elements tol
        = (pagesInOrder elements).flatMap
            (fun p => groupPageElements tol (pageElements elements p)) := by
      by_cases h : elements = []
      · subst h; rfl
      · rw [groupByYPosition, if_neg h]
    refine ⟨heq, ?_, ?_, ?_, ?_, ?_⟩
    · rw [heq, flatMap_flatten]
      have h1 : (pagesInOrder elements).flatMap
            (fun p => (groupPageElements tol (pageElements elements p)).flatten)
          = (pagesInOrder elements).flatMap (fun p => sortByY (pageElements elements p)) :=
        flatMap_congr_left _ _ _ (fun p _ => groupPage_flatten tol _)
      rw [h1]
      have h2 : ((pagesInOrder elements).flatMap
            (fun p => sortByY (pageElements elements p))).Perm
          ((pagesInOrder elements).flatMap (fun p => pageElements elements p)) :=
        flatMap_perm_congr _ _ _ (fun p _ => List.perm_insertionSort _ _)
      refine h2.trans (partition_perm _ elements (pyDedupAux_nodup _ _) ?_)
      intro e he
      exact (mem_pyDedup _ _).mpr (List.mem_map_of_mem _ he)
    · intro p; exact groupPage_flatten tol _
    · intro p; exact List.sorted_insertionSort _ _
    · intro group hg
      rw [heq] at hg
      rcases List.mem_flatMap.mp hg with ⟨p, hp, hgp⟩
      rcases hsy : sortByY (pageElements elements p) with _ | ⟨e, rest⟩
      · simp only [groupPageElements, hsy] at hgp
        exact absurd hgp (List.not_mem_nil _)
      · simp only [groupPageElements, hsy] at hgp
        have hgp' : group ∈ groupScan tol e.y (e :: []) rest := hgp
        obtain ⟨b, s, rfl, hb⟩ :=
          groupScan_anchored tol rest e [] (by simp) group hgp'
        refine ⟨b, s, rfl, hb, ?_⟩
        have hmem : ∀ x ∈ b :: s, x ∈ pageElements elements p := by
          intro x hx
          have hflat : x ∈ (groupScan tol e.y [e] rest).flatten :=
            List.mem_flatten.mpr ⟨b :: s, hgp, hx⟩
          rw [groupScan_flatten] at hflat
          have hx2 : x ∈ sortByY (pageElements elements p) := by
            rw [hsy]; exact hflat
          exact ((List.perm_insertionSort _ _).mem_iff).mp hx2
        have hpage : ∀ x ∈ b :: s, x.page = p := by
          intro x hx
          exact of_decide_eq_true (List.mem_filter.mp (hmem x hx)).2
        intro x hx
        rw [hpage x hx, hpage b (List.mem_cons_self _ _)]
    · intro p
      rcases hsy : sortByY (pageElements elements p) with _ | ⟨e, rest⟩
      · simp only [groupPageElements, hsy]
        exact List.chain'_nil
      · simp only [groupPageElements, hsy]
        exact groupScan_chain tol rest e []
  · decide

/-- Witness for C8 at the scenario input: the first group `[fragA, fragB]` is
anchored at `fragA` with `fragB` within tolerance, on a single page. -/
theorem line_grouping_witness :
    ∃ b s, [fragA, fragB] = b :: s ∧ (∀ e ∈ s, |e.y - b.y| ≤ 10)
      ∧ (∀ e ∈ [fragA, fragB], e.page = b.page) :=
  (line_grouping_spec.1 [fragA, fragB, fragC] 10).2.2.2.2.1 [fragA, fragB] (by decide)

/-! ## Claim C3 -/

theorem dedupHeaders_mem_props :
    ∀ (l : List HeaderRec) (seen : List String) (h : HeaderRec),
      h ∈ dedupHeaders l seen →
      h.header ∉ seen ∧ l.find? (fun g => decide (g.header = h.header)) = some h := by
  intro l
  induction l with
  | nil => intro seen h hh; simp [dedupHeaders] at hh
  | cons g l ih =>
    intro seen h hh
    rw [dedupHeaders] at hh
    by_cases hseen : g.header ∈ seen
    · rw [if_pos hseen] at hh
      obtain ⟨h1, h2⟩ := ih seen h hh
      refine ⟨h1, ?_⟩
      have hne : (decide (g.header = h.header)) = false :=
        decide_eq_false (fun hgh => h1 (hgh ▸ hseen))
      rw [List.find?_cons, hne]
      exact h2
    · rw [if_neg hseen] at hh
      rcases List.mem_cons.mp hh with rfl | hh
      · refine ⟨hseen, ?_⟩
        have hpos : (decide (h.header = h.header)) = true := by simp
        rw [List.find?_cons, hpos]
      · obtain ⟨h1, h2⟩ := ih _ h hh
        have hne1 : h.header ≠ g.header := fun hh2 =>
          h1 (by rw [hh2]; exact List.mem_cons_self _ _)
        refine ⟨fun hs => h1 (List.mem_cons_of_mem _ hs), ?_⟩
        have hne : (decide (g.header = h.header)) = false :=
          decide_eq_false (fun hgh => hne1 hgh.symm)
        rw [List.find?_cons, hne]
        exact h2

theorem dedupHeaders_pairwise :
    ∀ (l : List HeaderRec) (seen : List String),
      (dedupHeaders l seen).Pairwise (fun a b : HeaderRec => a.header ≠ b.header) := by
  intro l
  induction l with
  | nil => intro seen; exact List.Pairwise.nil
  | cons g l ih =>
    intro seen
    rw [dedupHeaders]
    by_cases hseen : g.header ∈ seen
    · rw [if_pos hseen]; exact ih seen
    · rw [if_neg hseen]
      refine List.pairwise_cons.mpr ⟨?_, ih _⟩
      intro b hb
      have hnot := (dedupHeaders_mem_props l (g.header :: seen) b hb).1
      intro hgb
      exact hnot (hgb ▸ List.mem_cons_self _ _)

theorem pyMaxBy_mem (key : TextElement → ℤ) :
    ∀ (l : List TextElement) (c : TextElement), pyMaxBy key c l ∈ c :: l := by
  intro l
  induction l with
  | nil => intro c; exact List.mem_cons_self _ _
  | cons e rest ih =>
    intro c
    rw [pyMaxBy]
    have hmem := ih (if key c < key e then e else c)
    rcases List.mem_cons.mp hmem with heq | hmem2
    · rw [heq]
      by_cases hlt : key c < key e
      · rw [if_pos hlt]; exact List.mem_cons_of_mem _ (List.mem_cons_self _ _)
      · rw [if_neg hlt]; exact List.mem_cons_self _ _
    · exact List.mem_cons_of_mem _ (List.mem_cons_of_mem _ hmem2)

theorem candidateFromGroup_page (fa : FontAnalysis) (group : List TextElement) (h : HeaderRec)
    (hc : candidateFromGroup fa group = some h) : ∃ e ∈ group, h.page = e.page := by
  cases group with
  | nil => simp [candidateFromGroup] at hc
  | cons e0 rest =>
    simp only [candidateFromGroup] at hc
    rcases hdg : dictGet? fa.header_levels (listMax ((e0 :: rest).map (·.font_size)))
      with _ | lvl
    · simp only [hdg] at hc
      exact Option.noConfusion hc
    · simp only [hdg] at hc
      split at hc
      · have hinj := Option.some.inj hc
        refine ⟨pyMaxBy (·.font_size) e0 rest, pyMaxBy_mem _ rest e0, ?_⟩
        rw [← hinj]
      · exact absurd hc (by simp)

theorem extractPage_page_eq (n : ℕ) (page : Page) :
    ∀ e ∈ extractPage n page, e.page = n + 1 := by
  intro e he
  rw [extractPage] at he
  rcases List.mem_flatMap.mp he with ⟨block, _, hb⟩
  cases block with
  | none => simp [extractBlock] at hb
  | some lines =>
    rw [extractBlock] at hb
    rcases List.mem_flatMap.mp hb with ⟨line, _, hl⟩
    rcases List.mem_filterMap.mp hl with ⟨span, _, hs⟩
    by_cases hstrip : pyStrip span.text = ""
    · rw [if_pos hstrip] at hs
      exact absurd hs (by simp)
    · rw [if_neg hstrip] at hs
      have hinj := Option.some.inj hs
      rw [← hinj]

theorem extractPagesFrom_page_lb :
    ∀ (ps : Doc) (n : ℕ) (e : TextElement), e ∈ extractPagesFrom n ps → n + 1 ≤ e.page := by
  intro ps
  induction ps with
  | nil => intro n e he; simp [extractPagesFrom] at he
  | cons page rest ih =>
    intro n e he
    rw [extractPagesFrom] at he
    rcases List.mem_append.mp he with he | he
    · rw [extractPage_page_eq n page e he]
    · have := ih (n + 1) e he
      omega

theorem extractPagesFrom_pairwise :
    ∀ (ps : Doc) (n : ℕ),
      (extractPagesFrom n ps).Pairwise (fun a b : TextElement => a.page ≤ b.page) := by
  intro ps
  induction ps with
  | nil => intro n; exact List.Pairwise.nil
  | cons page rest ih =>
    intro n
    rw [extractPagesFrom, List.pairwise_append]
    refine ⟨?_, ih (n + 1), ?_⟩
    · apply List.pairwise_of_forall_mem_list
      intro a ha b hb
      rw [extractPage_page_eq n page a ha, extractPage_page_eq n page b hb]
    · intro a ha b hb
      rw [extractPage_page_eq n page a ha]
      have := extractPagesFrom_page_lb rest (n + 1) b hb
      omega

theorem pagesInOrder_pairwise (doc : Doc) :
    (pagesInOrder (extractElements doc)).Pairwise (fun a b : ℕ => a ≤ b) := by
  have h1 : ((extractElements doc).map (·.page)).Pairwise (fun a b : ℕ => a ≤ b) := by
    rw [List.pairwise_map]
    exact extractPagesFrom_pairwise doc 0
  exact List.Pairwise.sublist (pyDedupAux_sublist _ _) h1

theorem filterMap_flatMap {α β γ : Type} (l : List α) (g : α → List β) (f : β → Option γ) :
    (l.flatMap g).filterMap f = l.flatMap (fun a => (g a).filterMap f) := by
  induction l with
  | nil => rfl
  | cons a l ih => rw [List.flatMap_cons, List.flatMap_cons, List.filterMap_append, ih]

theorem pairwise_flatMap_of {α β : Type} (R : β → β → Prop) (ks : List α) (F : α → List β)
    (h1 : ∀ a ∈ ks, (F a).Pairwise R)
    (h2 : ks.Pairwise (fun a b => ∀ x ∈ F a, ∀ y ∈ F b, R x y)) :
    (ks.flatMap F).Pairwise R := by
  induction ks with
  | nil => exact List.Pairwise.nil
  | cons a ks ih =>
    rw [List.flatMap_cons, List.pairwise_append]
    rcases List.pairwise_cons.mp h2 with ⟨h2a, h2b⟩
    refine ⟨h1 a (List.mem_cons_self _ _),
      ih (fun b hb => h1 b (List.mem_cons_of_mem _ hb)) h2b, ?_⟩
    intro x hx y hy
    rcases List.mem_flatMap.mp hy with ⟨b, hb, hyb⟩
    exact h2a b hb x hx y hyb

theorem candidates_on_page (elements : List TextElement) (fa : FontAnalysis) (p : ℕ) :
    ∀ h ∈ (groupPageElements 10 (pageElements elements p)).filterMap (candidateFromGroup fa),
      h.page = p := by
  intro h hh
  rcases List.mem_filterMap.mp hh with ⟨group, hg, hcg⟩
  rcases candidateFromGroup_page _ _ _ hcg with ⟨e, he, hpe⟩
  have he2 : e ∈ (groupPageElements 10 (pageElements elements p)).flatten :=
    List.mem_flatten.mpr ⟨group, hg, he⟩
  rw [groupPage_flatten] at he2
  have he3 := ((List.perm_insertionSort _ _).mem_iff).mp he2
  rw [hpe]
  exact of_decide_eq_true (List.mem_filter.mp he3).2

theorem candidateList_pairwise_page (doc : Doc) (min_size : ℤ) :
    (candidateList doc min_size).Pairwise (fun a b : HeaderRec => a.page ≤ b.page) := by
  rw [candidateList, headerCandidates]
  by_cases h : extractElements doc = []
  · rw [groupByYPosition, if_pos h]
    exact List.Pairwise.nil
  · rw [groupByYPosition, if_neg h, filterMap_flatMap]
    apply pairwise_flatMap_of
    · intro p _
      apply List.pairwise_of_forall_mem_list
      intro a ha b hb
      rw [candidates_on_page _ _ p a ha, candidates_on_page _ _ p b hb]
    · refine (pagesInOrder_pairwise doc).imp ?_
      intro p q hpq
      intro x hx y hy
      rw [candidates_on_page _ _ p x hx, candidates_on_page _ _ q y hy]
      exact hpq

/-- Claim C3: no two records of the final output share `header` text; every
output record is exactly the *first* candidate with its text in the pre-dedup
`headers` list (`candidateList`); and that list is in page-then-group order —
non-decreasing in `page`, with groups of one page kept in the order the
grouper opened them. -/
theorem dedup_first_occurrence_invariant (doc : Doc) (min_size : ℤ) :
    (detectHeaders doc min_size).Pairwise (fun a b : HeaderRec => a.header ≠ b.header)
    ∧ (∀ h ∈ detectHeaders doc min_size,
        (candidateList doc min_size).find? (fun g => decide (g.header = h.header)) = some h)
    ∧ (candidateList doc min_size).Pairwise (fun a b : HeaderRec => a.page ≤ b.page) := by
  have hperm : (detectHeaders doc min_size).Perm (dedupedList (extractElements doc) min_size) :=
    List.perm_insertionSort _ _
  refine ⟨?_, ?_, candidateList_pairwise_page doc min_size⟩
  · have hpw := dedupHeaders_pairwise (headerCandidates (extractElements doc)
        (analyzeFontHierarchy ((extractElements doc).map (·.font_size)) min_size)) []
    exact (List.Perm.pairwise_iff (fun hxy => Ne.symm hxy) hperm).mpr hpw
  · intro h hh
    have hh2 : h ∈ dedupedList (extractElements doc) min_size := hperm.mem_iff.mp hh
    exact (dedupHeaders_mem_props _ [] h hh2).2

/-- Witness for C3: in `exDocIntro` the detected "Introduction" record is the
first (and only) candidate carrying its text. -/
theorem dedup_first_occurrence_witness :
    (candidateList exDocIntro 120).find? (fun g => decide (g.header = hIntro.header))
      = some hIntro :=
  (dedup_first_occurrence_invariant exDocIntro 120).2.1 hIntro (by decide)

/-! ## Claim C1 -/

theorem dictGet?_cons (p : ℤ × ℕ) (d : List (ℤ × ℕ)) (k : ℤ) :
    dictGet? (p :: d) k = if p.1 = k then some p.2 else dictGet? d k := by
  rw [dictGet?, List.find?_cons]
  by_cases hp : p.1 = k
  · rw [if_pos hp, decide_eq_true hp]
    rfl
  · rw [if_neg hp, decide_eq_false hp]
    rfl

theorem dictGet?_map_overwrite (k : ℤ) (v : ℕ) (k' : ℤ) (hne : k' ≠ k) :
    ∀ d, dictGet? (d.map (fun p => if p.1 = k then (k, v) else p)) k' = dictGet? d k' := by
  intro d
  induction d with
  | nil => rfl
  | cons p d ih =>
    rw [List.map_cons, dictGet?_cons, dictGet?_cons]
    by_cases hp : p.1 = k
    · rw [if_pos hp]
      have h1 : ¬ ((k, v).1 = k') := fun hh => hne hh.symm
      have h2 : ¬ (p.1 = k') := by rw [hp]; exact fun hh => hne hh.symm
      rw [if_neg h1, if_neg h2, ih]
    · rw [if_neg hp]
      by_cases hpk : p.1 = k'
      · rw [if_pos hpk, if_pos hpk]
      · rw [if_neg hpk, if_neg hpk, ih]

theorem dictGet?_insert_found (k : ℤ) (v : ℕ) (k' : ℤ) :
    ∀ d, d.any (fun p => decide (p.1 = k)) = true →
      dictGet? (d.map (fun p => if p.1 = k then (k, v) else p)) k'
        = if k' = k then some v else dictGet? d k' := by
  intro d
  induction d with
  | nil => intro h; simp at h
  | cons p d ih =>
    intro hany
    rw [List.map_cons, dictGet?_cons]
    by_cases hp : p.1 = k
    · rw [if_pos hp]
      by_cases hk : k' = k
      · subst hk
        simp
      · have h1 : ¬ ((k, v).1 = k') := fun hh => hk hh.symm
        have h2 : ¬ (p.1 = k') := by rw [hp]; exact fun hh => hk hh.symm
        rw [if_neg h1, if_neg hk, dictGet?_cons, if_neg h2]
        exact dictGet?_map_overwrite k v k' hk d
    · rw [if_neg hp]
      have hany' : d.any (fun p => decide (p.1 = k)) = true := by
        rcases List.any_eq_true.mp hany with ⟨q, hq, hqk⟩
        rcases List.mem_cons.mp hq with rfl | hq2
        · exact absurd (of_decide_eq_true hqk) hp
        · exact List.any_eq_true.mpr ⟨q, hq2, hqk⟩
      by_cases hpk : p.1 = k'
      · rw [if_pos hpk]
        have hkk : ¬ (k' = k) := fun hh => hp (by rw [hpk, hh])
        rw [if_neg hkk, dictGet?_cons, if_pos hpk]
      · rw [if_neg hpk, ih hany', dictGet?_cons, if_neg hpk]

theorem dictGet?_append_new (k : ℤ) (v : ℕ) (k' : ℤ) :
    ∀ d, d.any (fun p => decide (p.1 = k)) = false →
      dictGet? (d ++ [(k, v)]) k' = if k' = k then some v else dictGet? d k' := by
  intro d
  induction d with
  | nil =>
    intro _
    show dictGet? [(k, v)] k' = _
    rw [dictGet?_cons]
    by_cases hk : k' = k
    · rw [if_pos hk.symm, if_pos hk]
    · rw [if_neg (fun hh => hk hh.symm), if_neg hk]
  | cons p d ih =>
    intro hany
    have hp : ¬ (p.1 = k) := by
      intro hh
      have hT : (p :: d).any (fun p => decide (p.1 = k)) = true :=
        List.any_eq_true.mpr ⟨p, List.mem_cons_self _ _, decide_eq_true hh⟩
      rw [hany] at hT
      exact Bool.noConfusion hT
    have hany' : d.any (fun p => decide (p.1 = k)) = false := by
      cases hd : d.any (fun p => decide (p.1 = k))
      · rfl
      · exfalso
        rcases List.any_eq_true.mp hd with ⟨q, hq, hqk⟩
        have hT : (p :: d).any (fun p => decide (p.1 = k)) = true :=
          List.any_eq_true.mpr ⟨q, List.mem_cons_of_mem _ hq, hqk⟩
        rw [hany] at hT
        exact Bool.noConfusion hT
    rw [List.cons_append, dictGet?_cons, dictGet?_cons]
    by_cases hpk : p.1 = k'
    · have hkk : ¬ (k' = k) := fun hh => hp (by rw [hpk, hh])
      rw [if_pos hpk, if_neg hkk, if_pos hpk]
    · rw [if_neg hpk, ih hany']
      by_cases hk : k' = k
      · rw [if_pos hk, if_pos hk]
      · rw [if_neg hk, if_neg hk, if_neg hpk]

theorem dictGet?_dictInsert (k : ℤ) (v : ℕ) (d : List (ℤ × ℕ)) (k' : ℤ) :
    dictGet? (dictInsert k v d) k' = if k' = k then some v else dictGet? d k' := by
  rw [dictInsert]
  by_cases hany : d.any (fun p => decide (p.1 = k)) = true
  · rw [if_pos hany]
    exact dictGet?_insert_found k v k' d hany
  · have hf : d.any (fun p => decide (p.1 = k)) = false := by
      simp only [Bool.not_eq_true] at hany
      exact hany
    rw [if_neg hany]
    exact dictGet?_append_new k v k' d hf

theorem innerFold_get (hs : List ℤ) (g : ℤ) (i : ℕ) :
    ∀ (d : List (ℤ × ℕ)) (s : ℤ),
      dictGet? (hs.foldl (fun d2 os => if |os - g| ≤ 5 then dictInsert os i d2 else d2) d) s
        = if s ∈ hs ∧ |s - g| ≤ 5 then some i else dictGet? d s := by
  induction hs with
  | nil =>
    intro d s
    simp
  | cons os rest ih =>
    intro d s
    rw [List.foldl_cons, ih]
    by_cases h1 : s ∈ rest ∧ |s - g| ≤ 5
    · rw [if_pos h1, if_pos ⟨List.mem_cons_of_mem _ h1.1, h1.2⟩]
    · rw [if_neg h1]
      by_cases h2 : |os - g| ≤ 5
      · rw [if_pos h2, dictGet?_dictInsert]
        by_cases h3 : s = os
        · rw [if_pos h3]
          have hcond : s ∈ os :: rest ∧ |s - g| ≤ 5 := by
            subst h3
            exact ⟨List.mem_cons_self _ _, h2⟩
          rw [if_pos hcond]
        · rw [if_neg h3]
          have hcond : ¬ (s ∈ os :: rest ∧ |s - g| ≤ 5) := by
            rintro ⟨hmem, habs⟩
            rcases List.mem_cons.mp hmem with rfl | hmem2
            · exact h3 rfl
            · exact h1 ⟨hmem2, habs⟩
          rw [if_neg hcond]
      · rw [if_neg h2]
        have hcond : ¬ (s ∈ os :: rest ∧ |s - g| ≤ 5) := by
          rintro ⟨hmem, habs⟩
          rcases List.mem_cons.mp hmem with rfl | hmem2
          · exact h2 habs
          · exact h1 ⟨hmem2, habs⟩
        rw [if_neg hcond]

theorem outerFold_get (hs : List ℤ) :
    ∀ (pairs : List (ℕ × ℤ)) (d : List (ℤ × ℕ)) (s : ℤ),
      dictGet? (pairs.foldl (fun d ig => hs.foldl
          (fun d2 os => if |os - ig.2| ≤ 5 then dictInsert os ig.1 d2 else d2) d) d) s
        = match lastMatchP s hs pairs with
          | some j => some j
          | none => dictGet? d s := by
  intro pairs
  induction pairs with
  | nil => intro d s; rfl
  | cons ig rest ih =>
    intro d s
    rw [List.foldl_cons, ih, lastMatchP]
    cases hrest : lastMatchP s hs rest with
    | some j => simp only [hrest]
    | none =>
      simp only [hrest]
      rw [innerFold_get]
      by_cases hcond : s ∈ hs ∧ |s - ig.2| ≤ 5
      · rw [if_pos hcond, if_pos hcond]
      · rw [if_neg hcond, if_neg hcond]

theorem buildSizeToLevel_get (grouped hs : List ℤ) (s : ℤ) :
    dictGet? (buildSizeToLevel grouped hs) s = lastMatchP s hs (grouped.enumFrom 1) := by
  rw [buildSizeToLevel, outerFold_get]
  cases h : lastMatchP s hs (grouped.enumFrom 1) with
  | none => rfl
  | some j => rfl

theorem lastMatchP_mem (s : ℤ) (hs : List ℤ) :
    ∀ (pairs : List (ℕ × ℤ)) (j : ℕ), lastMatchP s hs pairs = some j →
      s ∈ hs ∧ ∃ p ∈ pairs, p.1 = j ∧ |s - p.2| ≤ 5 := by
  intro pairs
  induction pairs with
  | nil => intro j h; simp [lastMatchP] at h
  | cons ig rest ih =>
    intro j h
    rw [lastMatchP] at h
    cases hrest : lastMatchP s hs rest with
    | some j' =>
      simp only [hrest] at h
      have hj := Option.some.inj h
      obtain ⟨hmem, p, hp, hpj, habs⟩ := ih j' hrest
      exact ⟨hmem, p, List.mem_cons_of_mem _ hp, by rw [hpj, hj], habs⟩
    | none =>
      simp only [hrest] at h
      by_cases hcond : s ∈ hs ∧ |s - ig.2| ≤ 5
      · rw [if_pos hcond] at h
        have hj := Option.some.inj h
        exact ⟨hcond.1, ig, List.mem_cons_self _ _, hj, hcond.2⟩
      · rw [if_neg hcond] at h
        exact Option.noConfusion h

theorem lastMatchP_none (s : ℤ) (hs : List ℤ) :
    ∀ (pairs : List (ℕ × ℤ)), lastMatchP s hs pairs = none →
      ∀ p ∈ pairs, ¬ (s ∈ hs ∧ |s - p.2| ≤ 5) := by
  intro pairs
  induction pairs with
  | nil => intro _ p hp; exact absurd hp (List.not_mem_nil _)
  | cons ig rest ih =>
    intro h p hp
    rw [lastMatchP] at h
    cases hrest : lastMatchP s hs rest with
    | some j' =>
      simp only [hrest] at h
      exact Option.noConfusion h
    | none =>
      simp only [hrest] at h
      rcases List.mem_cons.mp hp with rfl | hp2
      · intro hcond
        rw [if_pos hcond] at h
        exact Option.noConfusion h
      · exact ih hrest p hp2

theorem lastMatchP_mono (hs : List ℤ) (a b : ℤ) (hab : b < a) :
    ∀ (pairs : List (ℕ × ℤ)),
      pairs.Pairwise (fun p q : ℕ × ℤ => p.1 ≤ q.1) →
      pairs.Pairwise (fun p q : ℕ × ℤ => q.2 ≤ p.2) →
      ∀ ia ib, lastMatchP a hs pairs = some ia → lastMatchP b hs pairs = some ib →
        ia ≤ ib := by
  intro pairs
  induction pairs with
  | nil => intro _ _ ia ib ha _; simp [lastMatchP] at ha
  | cons ig rest ih =>
    intro hfst hsnd ia ib ha hb
    rcases List.pairwise_cons.mp hfst with ⟨hfst1, hfst2⟩
    rcases List.pairwise_cons.mp hsnd with ⟨hsnd1, hsnd2⟩
    rw [lastMatchP] at ha hb
    cases hra : lastMatchP a hs rest with
    | some ja =>
      simp only [hra] at ha
      have hia := Option.some.inj ha
      cases hrb : lastMatchP b hs rest with
      | some jb =>
        simp only [hrb] at hb
        have hib := Option.some.inj hb
        have := ih hfst2 hsnd2 ja jb hra hrb
        omega
      | none =>
        simp only [hrb] at hb
        by_cases hcond : b ∈ hs ∧ |b - ig.2| ≤ 5
        · exfalso
          obtain ⟨_, p, hp, _, habs⟩ := lastMatchP_mem a hs rest ja hra
          have h1 : p.2 ≤ ig.2 := hsnd1 p hp
          have h2 : |b - ig.2| ≤ 5 := hcond.2
          have hbp : |b - p.2| ≤ 5 := by
            rw [abs_sub_le_iff] at habs h2 ⊢
            constructor <;> omega
          exact (lastMatchP_none b hs rest hrb p hp) ⟨hcond.1, hbp⟩
        · rw [if_neg hcond] at hb
          exact Option.noConfusion hb
    | none =>
      simp only [hra] at ha
      by_cases hconda : a ∈ hs ∧ |a - ig.2| ≤ 5
      · rw [if_pos hconda] at ha
        have hia := Option.some.inj ha
        cases hrb : lastMatchP b hs rest with
        | some jb =>
          simp only [hrb] at hb
          have hib := Option.some.inj hb
          obtain ⟨_, p, hp, hpj, _⟩ := lastMatchP_mem b hs rest jb hrb
          have := hfst1 p hp
          omega
        | none =>
          simp only [hrb] at hb
          by_cases hcondb : b ∈ hs ∧ |b - ig.2| ≤ 5
          · rw [if_pos hcondb] at hb
            have hib := Option.some.inj hb
            omega
          · rw [if_neg hcondb] at hb
            exact Option.noConfusion hb
      · rw [if_neg hconda] at ha
        exact Option.noConfusion ha

theorem mem_enumFrom_facts :
    ∀ (l : List ℤ) (n : ℕ) (p : ℕ × ℤ), p ∈ l.enumFrom n → n ≤ p.1 ∧ p.2 ∈ l := by
  intro l
  induction l with
  | nil => intro n p hp; simp [List.enumFrom] at hp
  | cons x xs ih =>
    intro n p hp
    rw [List.enumFrom] at hp
    rcases List.mem_cons.mp hp with rfl | hp2
    · exact ⟨le_refl n, List.mem_cons_self _ _⟩
    · obtain ⟨h1, h2⟩ := ih (n + 1) p hp2
      exact ⟨by omega, List.mem_cons_of_mem _ h2⟩

theorem enumFrom_pairwise_fst :
    ∀ (l : List ℤ) (n : ℕ), (l.enumFrom n).Pairwise (fun p q : ℕ × ℤ => p.1 ≤ q.1) := by
  intro l
  induction l with
  | nil => intro n; exact List.Pairwise.nil
  | cons x xs ih =>
    intro n
    rw [List.enumFrom]
    refine List.pairwise_cons.mpr ⟨?_, ih (n + 1)⟩
    intro p hp
    have := (mem_enumFrom_facts xs (n + 1) p hp).1
    show n ≤ p.1
    omega

theorem enumFrom_pairwise_snd :
    ∀ (l : List ℤ) (n : ℕ), l.Pairwise (fun a b : ℤ => b ≤ a) →
      (l.enumFrom n).Pairwise (fun p q : ℕ × ℤ => q.2 ≤ p.2) := by
  intro l
  induction l with
  | nil => intro n _; exact List.Pairwise.nil
  | cons x xs ih =>
    intro n hl
    rcases List.pairwise_cons.mp hl with ⟨h1, h2⟩
    rw [List.enumFrom]
    refine List.pairwise_cons.mpr ⟨?_, ih (n + 1) h2⟩
    intro p hp
    exact h1 p.2 (mem_enumFrom_facts xs (n + 1) p hp).2

/-- Claim C1: monotonic leveling — for every font-size multiset and every
`min_size`, if two sizes `a > b` are both keys of the analyzer's
`size_to_level`, then the level of `a` is at most the level of `b` (a larger
size never maps to a numerically larger, lower-priority level). -/
theorem monotonic_leveling (sizes : List ℤ) (min_size a b : ℤ) (la lb : ℕ)
    (hab : b < a)
    (ha : dictGet? (analyzeFontHierarchy sizes min_size).size_to_level a = some la)
    (hb : dictGet? (analyzeFontHierarchy sizes min_size).size_to_level b = some lb) :
    la ≤ lb := by
  have ha' : lastMatchP a (header_unique_sizes sizes min_size)
      ((grouped_sizes sizes min_size).enumFrom 1) = some la := by
    have h0 : dictGet? (buildSizeToLevel (grouped_sizes sizes min_size)
        (header_unique_sizes sizes min_size)) a = some la := ha
    rw [buildSizeToLevel_get] at h0
    exact h0
  have hb' : lastMatchP b (header_unique_sizes sizes min_size)
      ((grouped_sizes sizes min_size).enumFrom 1) = some lb := by
    have h0 : dictGet? (buildSizeToLevel (grouped_sizes sizes min_size)
        (header_unique_sizes sizes min_size)) b = some lb := hb
    rw [buildSizeToLevel_get] at h0
    exact h0
  have hdesc : (grouped_sizes sizes min_size).Pairwise (fun a b : ℤ => b ≤ a) :=
    sortDesc_sorted _
  exact lastMatchP_mono (header_unique_sizes sizes min_size) a b hab _
    (enumFrom_pairwise_fst _ 1) (enumFrom_pairwise_snd _ 1 hdesc) la lb ha' hb'

/-- Witness for C1 at sizes `[30.0, 24.0]` (↦ `[300, 240]`), `min_size = 12.0`:
30.0pt is level 1, 24.0pt is level 2, and `1 ≤ 2`. -/
theorem monotonic_leveling_witness :
    dictGet? (analyzeFontHierarchy [300, 240] 120).size_to_level 300 = some 1
    ∧ dictGet? (analyzeFontHierarchy [300, 240] 120).size_to_level 240 = some 2
    ∧ (1 : ℕ) ≤ 2 :=
  ⟨by decide, by decide,
    monotonic_leveling [300, 240] 120 300 240 1 2 (by decide) (by decide) (by decide)⟩
